import Mathlib

/-!
Verification development for the RPGM-AUTObot repository.

This file gives a shallow embedding, in Lean 4, of the decision-engine
parts of the repository and proves (or refutes) the frozen claims about
them.  Python data types are modelled as follows: Python `int` is `Int`
(or `Nat` where the value is provably non-negative), Python `float`
time/threshold values are modelled as exact rationals `Rat` where the
code only adds and compares them, and as real numbers `Real` for the
image-statistics pipeline (mean / std / normalised correlation), whose
exact-arithmetic content is what the claims are about.  Python `str` is
`String`; `str.lower()` is modelled by `Char.toLower` (ASCII case
folding, which agrees with Python on every character appearing in the
programs' keyword tables).  Python lists and deques are Lean `List`s;
a `deque(maxlen=n)` is a list together with the drop-oldest push
operation `ringPush`; Python `set` / `dict` are modelled as lists of
elements / key-value pairs with membership-aware update operations.
Library calls into OpenCV (`cv2.resize`, `cv2.cvtColor`,
`cv2.calcOpticalFlowFarneback`) are abstracted as function parameters
of the embedded definitions.
-/

namespace RPGM

/-! ## src/unblock.py -/

/-- `unblock.PATTERN`: the fixed escape pattern (source order). -/
def PATTERN : List String :=
  ["LEFT", "RIGHT", "UP", "DOWN",
   "LEFT", "UP", "RIGHT", "DOWN",
   "MENU", "INTERACT",
   "UP", "UP", "RIGHT", "DOWN", "LEFT"]

/-- `unblock.routine`: the generator's single step.  The generator keeps an
internal cursor `i`; every `next()` call yields `PATTERN[i % len(PATTERN)]`
and then increments `i`. -/
def routine_next (i : Nat) : String × Nat :=
  (PATTERN.getD (i % PATTERN.length) "", i + 1)

/-! ## src/rpgm_autoplay/memory/state.py : cell packing -/

/-- `state._pack_cell`: `((x & 0xFFFF) << 16) | (y & 0xFFFF)`.  Python `&`
on arbitrary (possibly negative) ints with a mask `0xFFFF` is the
non-negative residue `% 65536` (Euclidean remainder); the shifted/or-ed
result is a non-negative Python int, modelled as `Nat`. -/
def pack_cell (x y : Int) : Nat :=
  ((x % 65536).toNat <<< 16) ||| (y % 65536).toNat

/-- `state._unpack_cell`: extract the two 16-bit halves and re-interpret
each as a signed 16-bit value. -/
def unpack_cell (v : Nat) : Int × Int :=
  let x : Nat := (v >>> 16) &&& 0xFFFF
  let y : Nat := v &&& 0xFFFF
  ((if x ≥ 0x8000 then (x : Int) - 0x10000 else (x : Int)),
   (if y ≥ 0x8000 then (y : Int) - 0x10000 else (y : Int)))

/-! ## src/rpgm_autoplay/memory/state.py : data model

Containers: a Python `deque(maxlen=cap)` is a list plus the
capacity-bounded append `ringPush` (append right, drop from the left when
over capacity); `deque(iterable, maxlen=cap)` keeps the *last* `cap`
elements, i.e. `takeLast`.  A Python `dict` is an association list with
membership-aware assignment (`alistSet`), lookup (`alistGet`) and removal
(`alistPop`); a Python `set` is a duplicate-free list. -/

/-- Keep the last `n` elements of `l` (Python `list[-n:]` /
`deque(l, maxlen=n)`). -/
def takeLast (n : Nat) (l : List α) : List α := l.drop (l.length - n)

/-- Append on the right, dropping the oldest element when the capacity is
exceeded (`deque.append` with `maxlen = cap`). -/
def ringPush (cap : Nat) (l : List α) (x : α) : List α :=
  takeLast cap (l ++ [x])

/-- Dictionary lookup (`dict.get(k)`). -/
def alistGet [DecidableEq κ] (d : List (κ × ν)) (k : κ) : Option ν :=
  (d.find? (fun p => decide (p.1 = k))).map (fun p => p.2)

/-- Dictionary assignment (`d[k] = v`): overwrite in place if the key is
present, append otherwise. -/
def alistSet [DecidableEq κ] (d : List (κ × ν)) (k : κ) (v : ν) :
    List (κ × ν) :=
  if d.any (fun p => decide (p.1 = k)) then
    d.map (fun p => if p.1 = k then (k, v) else p)
  else d ++ [(k, v)]

/-- Dictionary removal (`d.pop(k, None)`). -/
def alistPop [DecidableEq κ] (d : List (κ × ν)) (k : κ) : List (κ × ν) :=
  d.filter (fun p => decide (¬ p.1 = k))

/-- Python `max` over a non-empty list (`[] ↦ 0` is a junk value never
reached by the code, which guards non-emptiness). -/
def listMax : List Int → Int
  | [] => 0
  | x :: xs => xs.foldl max x

/-- Python `min` over a non-empty list. -/
def listMin : List Int → Int
  | [] => 0
  | x :: xs => xs.foldl min x

/-- `state.Perception`: the per-tick perception snapshot dataclass. -/
structure Perception where
  in_dialog : Bool
  choices : List String
  pos : Option (Int × Int)
  interactables : List (Int × Int × String)
  screen_hash : Option Int
  dialog_text : Option String := none
  deriving Repr, DecidableEq

/-- `state.Memory`: the agent's session memory.  `last_progress_t` and the
timestamps in `used_interactables` are wall-clock values; all operations
that call `time.time()` in the source take the current time `now : Rat`
as an explicit argument here. -/
structure Memory where
  visited_cells : List (Int × Int)
  used_interactables : List ((Int × Int × String) × Rat)
  last_positions : List (Int × Int)
  last_progress_t : Rat
  seen_hashes : List Int
  recent_dialogs : List String
  prev_interactables : List (Int × Int × String)
  missing_counts : List ((Int × Int × String) × Nat)
  deriving Repr, DecidableEq

/-- `Memory.__init__` (at wall-clock time `now`). -/
def Memory.init (now : Rat) : Memory :=
  { visited_cells := []
    used_interactables := []
    last_positions := []
    last_progress_t := now
    seen_hashes := []
    recent_dialogs := []
    prev_interactables := []
    missing_counts := [] }

/-- `Memory.mark_progress` (the log line has no bearing on state). -/
def Memory.mark_progress (m : Memory) (now : Rat) : Memory :=
  { m with last_progress_t := now }

/-- `Memory.mark_visited`. -/
def Memory.mark_visited (m : Memory) (pos : Int × Int) (now : Rat) :
    Memory :=
  let m1 := if pos ∈ m.visited_cells then m
    else { m.mark_progress now with
             visited_cells := m.visited_cells ++ [pos] }
  { m1 with last_positions := ringPush 30 m1.last_positions pos }

/-- `Memory.mark_used_interactable`. -/
def Memory.mark_used_interactable (m : Memory) (x y : Int) (t : String)
    (now : Rat) : Memory :=
  { m.mark_progress now with
      used_interactables := alistSet m.used_interactables (x, y, t) now }

/-- `Memory.is_stuck`. -/
def Memory.is_stuck (m : Memory) : Bool :=
  if m.last_positions.length < 30 then false
  else
    let xs := m.last_positions.map Prod.fst
    let ys := m.last_positions.map Prod.snd
    decide (listMax xs - listMin xs ≤ 1) &&
      decide (listMax ys - listMin ys ≤ 1)

/-- The `for inter in self._prev_interactables:` loop inside
`Memory.update_progress`, threading the `_missing_counts` table and
returning whether any miss counter reached the strike threshold 2 (each
such event calls `mark_progress` and pops the counter; the source assigns
`_missing_counts[inter] = cnt` before popping, hence `alistPop ∘ alistSet`
below). -/
def missLoop (current : List (Int × Int × String)) :
    List (Int × Int × String) → List ((Int × Int × String) × Nat) →
    List ((Int × Int × String) × Nat) × Bool
  | [], counts => (counts, false)
  | inter :: rest, counts =>
    if inter ∈ current then
      missLoop current rest (alistPop counts inter)
    else
      let cnt := (alistGet counts inter).getD 0 + 1
      if 2 ≤ cnt then
        let r := missLoop current rest (alistPop (alistSet counts inter cnt) inter)
        (r.1, true)
      else
        missLoop current rest (alistSet counts inter cnt)

/-- `Memory.update_progress`.  `screen_hash is not None` admits every
integer; `if perception.dialog_text:` is Python truthiness, skipping both
`None` and the empty string. -/
def Memory.update_progress (m : Memory) (p : Perception) (now : Rat) :
    Memory :=
  let m1 := match p.screen_hash with
    | some h =>
      let ma := if h ∈ takeLast 5 m.seen_hashes then m
                else m.mark_progress now
      { ma with seen_hashes := ringPush 50 ma.seen_hashes h }
    | none => m
  let current := p.interactables.dedup
  let r := missLoop current m1.prev_interactables m1.missing_counts
  let m2' := if r.2 then m1.mark_progress now else m1
  let m2 := { m2' with missing_counts := r.1,
                       prev_interactables := current }
  match p.dialog_text with
  | some d =>
    if d = "" then m2
    else
      let mb := if d ∈ m2.recent_dialogs then m2
                else m2.mark_progress now
      { mb with recent_dialogs := ringPush 5 mb.recent_dialogs d }
  | none => m2

/-- The JSON object written by `Memory.save` / read by `Memory.load`. -/
structure SaveData where
  visited_cells : List Nat
  used_interactables : List ((Int × Int × String) × Rat)
  last_positions : List (Int × Int)
  last_progress_t : Rat
  seen_hashes : List Int
  recent_dialogs : List String
  deriving Repr, DecidableEq

/-- `state._compact_cells` (`sorted(pack(x, y) for x, y in cells)`). -/
def compact_cells (cells : List (Int × Int)) : List Nat :=
  (cells.map (fun c => pack_cell c.1 c.2)).mergeSort (fun a b => a ≤ b)

/-- `state._expand_cells` (a set comprehension over `unpack`). -/
def expand_cells (data : List Nat) : List (Int × Int) :=
  (data.map unpack_cell).dedup

/-- `Memory.save`: pure serialisation (the memory object itself is not
modified by saving). -/
def Memory.save_data (m : Memory) : SaveData :=
  { visited_cells := compact_cells m.visited_cells
    used_interactables := m.used_interactables
    last_positions := m.last_positions
    last_progress_t := m.last_progress_t
    seen_hashes := m.seen_hashes
    recent_dialogs := m.recent_dialogs }

/-- `Memory.load`: rebuild a fresh memory from parsed data; the
`deque(..., maxlen=n)` constructors keep only the newest `n` entries. -/
def Memory.load (d : SaveData) : Memory :=
  { visited_cells := expand_cells d.visited_cells
    used_interactables := d.used_interactables
    last_positions := takeLast 30 d.last_positions
    last_progress_t := d.last_progress_t
    seen_hashes := takeLast 50 d.seen_hashes
    recent_dialogs := takeLast 5 d.recent_dialogs
    prev_interactables := []
    missing_counts := [] }

/-! ## src/rpgm_autoplay/agent/policy.py

`str.lower()` is modelled by mapping `Char.toLower` over the characters;
Python `needle in haystack` on strings is contiguous-substring (list
infix) containment. -/

/-- Python `str.lower()` (ASCII case folding; it agrees with Python's
`lower` on every character of the keyword tables below). -/
def lowerStr (s : String) : String := ⟨s.data.map Char.toLower⟩

/-- Python `needle in hay` for strings: contiguous substring test. -/
def isSubstring (needle hay : String) : Bool :=
  decide (needle.data <:+: hay.data)

/-- `policy.STORY_KEYWORDS["en"]` (a Python set; listed in source order —
scoring only counts matches, so the order is irrelevant). -/
def en_keywords : List String :=
  ["story", "quest", "start", "continue", "next",
   "yes", "ok", "accept", "enter", "proceed"]

/-- `policy.STORY_KEYWORDS["fr"]`. -/
def fr_keywords : List String :=
  ["histoire", "qu\xeate", "commencer", "continuer", "suivant",
   "oui", "d\x27accord", "accepter", "entrer", "poursuivre"]

/-- `policy.STORY_KEYWORDS["jp"]`. -/
def jp_keywords : List String :=
  ["ストーリー", "クエスト", "開始", "続ける", "次へ",
   "はい", "進む", "了解", "入る"]

/-- `Agent._choice_score`: English and French keywords are matched
case-insensitively (`kw.lower() in ltext`), Japanese keywords are matched
verbatim (`kw in text`). -/
def choice_score (text : String) : Nat :=
  let ltext := lowerStr text
  en_keywords.countP (fun kw => isSubstring (lowerStr kw) ltext) +
    fr_keywords.countP (fun kw => isSubstring (lowerStr kw) ltext) +
    jp_keywords.countP (fun kw => isSubstring kw text)

/-- The scoring loop of `Agent._select_choice`: running index `i`, best
index `best_i` and best score `best_score` (initially `-1`). -/
def select_choice_aux :
    List String → Nat → Nat → Int → Nat × Int
  | [], _, best_i, best_score => (best_i, best_score)
  | o :: rest, i, best_i, best_score =>
    if best_score < (choice_score o : Int) then
      select_choice_aux rest (i + 1) i (choice_score o)
    else
      select_choice_aux rest (i + 1) best_i best_score

/-- `Agent._select_choice`. -/
def select_choice (choices : List String) : Nat :=
  (select_choice_aux choices 0 0 (-1)).1

/-- The tagged union of high-level actions produced by
`Agent.next_action` (the returned Python dicts, one constructor per
`"type"` value). -/
inductive Action where
  | press_confirm : Action
  | sel_choice (index : Nat) : Action
  | move_and_interact (target : Int × Int × String) : Action
  | unstuck_seq (sequence : List String) : Action
  | explore_wallfollow (hand : String) : Action
  deriving Repr, DecidableEq

/-- The scan over `perception.interactables` in step 3 of
`Agent.next_action`: the first interactable that is not a key of
`memory.used_interactables` and is within Manhattan distance 1 of the
player. -/
def find_target (used : List ((Int × Int × String) × Rat))
    (inters : List (Int × Int × String)) (px py : Int) :
    Option (Int × Int × String) :=
  inters.find? (fun it =>
    !(used.any (fun q => decide (q.1 = it))) &&
      decide (|px - it.1| + |py - it.2.1| ≤ 1))

/-- `Agent.next_action`.  The Python method mutates `self.memory`
(`mark_visited`, `last_progress_t`, `mark_used_interactable`); the
embedding returns the action together with the memory after the call. -/
def next_action (m : Memory) (p : Perception) (now : Rat) :
    Action × Memory :=
  let m0 := match p.pos with
    | some pos => m.mark_visited pos now
    | none => m
  if p.in_dialog then
    (Action.press_confirm, { m0 with last_progress_t := now })
  else if p.choices ≠ [] then
    (Action.sel_choice (select_choice p.choices),
     { m0 with last_progress_t := now })
  else
    let step45 : Action × Memory :=
      if m0.is_stuck then
        (Action.unstuck_seq ["MOVE_UP", "MOVE_RIGHT", "MOVE_DOWN",
                             "MOVE_LEFT"], m0)
      else (Action.explore_wallfollow "right", m0)
    match p.pos with
    | some pq =>
      match find_target m0.used_interactables p.interactables pq.1 pq.2 with
      | some tg =>
        (Action.move_and_interact tg,
         m0.mark_used_interactable tg.1 tg.2.1 tg.2.2 now)
      | none => step45
    | none => step45

/-- Spec-side scoring function, written from the spec's words for the
refinement half of the choice-selection claim: "`score` counts
case-insensitive substring matches against a fixed multilingual
story-positive keyword set". -/
def score_spec (text : String) : Nat :=
  (en_keywords ++ fr_keywords ++ jp_keywords).countP
    (fun kw => isSubstring (lowerStr kw) (lowerStr text))

/-! ## src/perception.py : blocked-state tracking

`frame_similarity` downsamples (`cv2.resize`) and converts to grayscale
(`cv2.cvtColor`); the composition of these two library calls is
abstracted as a parameter `pre : α → List Real` mapping a raw frame to
its flat list of downsampled grayscale intensities.  The z-score
normalisation, the mean of the elementwise product and the rescale into
`[0,1]` are embedded exactly, over the reals (`np.std` is the population
standard deviation).  `optical_flow_magnitude` (Farnebäck dense flow, a
numerical library routine) is abstracted as a parameter
`flowM : α → α → Real`. -/

noncomputable def meanL (l : List Real) : Real := l.sum / l.length

noncomputable def varL (l : List Real) : Real :=
  meanL (l.map (fun v => (v - meanL l) ^ 2))

/-- `np.std`: square root of the population variance. -/
noncomputable def stdL (l : List Real) : Real := Real.sqrt (varL l)

/-- The z-score normalisation `(p - p.mean()) / (p.std() + 1e-6)`. -/
noncomputable def zscore (l : List Real) : List Real :=
  l.map (fun v => (v - meanL l) / (stdL l + 1e-6))

/-- `perception.frame_similarity`: mean of the elementwise product of the
two normalised intensity lists, rescaled from `[-1,1]` to `[0,1]`. -/
noncomputable def frame_similarity (pre : α → List Real) (p c : α) :
    Real :=
  (meanL (List.zipWith (fun a b => a * b) (zscore (pre p))
    (zscore (pre c))) + 1) / 2

/-- `perception.update_blocked_seconds`: accumulate when the pair of
frames is similar (`sim >= threshold`) and near-motionless
(`flow < 0.2`), reset to zero otherwise.  (The `try/except` of the source
only degrades the flow value to `0.0`, which is covered by `flowM` being
arbitrary.) -/
noncomputable def update_blocked_seconds (pre : α → List Real)
    (flowM : α → α → Real) (p c : α)
    (prev_blocked dt threshold : Real) : Real :=
  if threshold ≤ frame_similarity pre p c ∧ flowM p c < 0.2 then
    prev_blocked + dt
  else 0

/-- The first loop iteration of `main.main` (src/main.py): with no
previous frame, `prev = frame.copy()` and then
`blocked_s = update_blocked_seconds(prev, frame, 0.0, dt, 0.995)` —
i.e. the frame is compared against its own copy with accumulator 0. -/
noncomputable def first_tick_blocked (pre : α → List Real)
    (flowM : α → α → Real) (frame : α) (dt : Real) : Real :=
  update_blocked_seconds pre flowM frame frame 0 dt 0.995

/-! ## src/main.py : the unblock override site

One tick's decision in the runner loop: when the accumulated
`blocked_s` has reached `cfg.unblock_after_s` the next element of the
`unblock.routine()` generator is substituted for the policy's decision
(`decide_action`), whose output for the tick's state is abstracted as
`policy_out` — the override does not inspect it or any other perception
content. -/

/-- One tick of perception-derived input to the decision site. -/
structure TickInput where
  blocked_s : Rat
  policy_out : String
  deriving Repr, DecidableEq

/-- `if blocked_s >= cfg.unblock_after_s: action = next(unb) else:
action = decide_action(...)`, threading the generator cursor. -/
def loop_decide (unblock_after : Rat) (cursor : Nat) (inp : TickInput) :
    String × Nat :=
  if unblock_after ≤ inp.blocked_s then routine_next cursor
  else (inp.policy_out, cursor)

/-- The sequence of decisions over a run of ticks, starting from a given
generator cursor (the generator is created once, before the loop). -/
def loop_run (unblock_after : Rat) (cursor : Nat) :
    List TickInput → List String
  | [] => []
  | inp :: rest =>
    (loop_decide unblock_after cursor inp).1 ::
      loop_run unblock_after (loop_decide unblock_after cursor inp).2 rest

/-! helper lemmas about the bit manipulations -/

theorem shiftLeft_or_eq (a b : Nat) (hb : b < 65536) :
    (a <<< 16) ||| b = a * 65536 + b := by
  have hb2 : b < 2 ^ 16 := by omega
  have h := Nat.mul_add_lt_is_or (i := 16) hb2 a
  rw [Nat.shiftLeft_eq]
  norm_num at h ⊢
  rw [Nat.mul_comm a 65536]
  exact h.symm

theorem length_takeLast (n : Nat) (l : List α) :
    (takeLast n l).length ≤ n := by
  simp [takeLast]
  omega

theorem length_ringPush (cap : Nat) (l : List α) (x : α) :
    (ringPush cap l x).length ≤ cap := length_takeLast _ _

theorem foldl_max_spec (xs : List Int) (x : Int) :
    x ≤ xs.foldl max x ∧ ∀ y ∈ xs, y ≤ xs.foldl max x := by
  induction xs generalizing x with
  | nil => simp
  | cons a t ih =>
    simp only [List.foldl_cons, List.mem_cons]
    have h := ih (max x a)
    refine ⟨le_trans (le_max_left x a) h.1, ?_⟩
    rintro y (rfl | hy)
    · exact le_trans (le_max_right x _) h.1
    · exact h.2 y hy

theorem foldl_max_mem (xs : List Int) (x : Int) :
    xs.foldl max x = x ∨ xs.foldl max x ∈ xs := by
  induction xs generalizing x with
  | nil => left; rfl
  | cons a t ih =>
    simp only [List.foldl_cons, List.mem_cons]
    rcases ih (max x a) with h | h
    · rcases max_cases x a with ⟨he, _⟩ | ⟨he, _⟩
      · left; rw [h, he]
      · right; left; rw [h, he]
    · right; right; exact h

theorem foldl_min_spec (xs : List Int) (x : Int) :
    xs.foldl min x ≤ x ∧ ∀ y ∈ xs, xs.foldl min x ≤ y := by
  induction xs generalizing x with
  | nil => simp
  | cons a t ih =>
    simp only [List.foldl_cons, List.mem_cons]
    have h := ih (min x a)
    refine ⟨le_trans h.1 (min_le_left x a), ?_⟩
    rintro y (rfl | hy)
    · exact le_trans h.1 (min_le_right x _)
    · exact h.2 y hy

theorem foldl_min_mem (xs : List Int) (x : Int) :
    xs.foldl min x = x ∨ xs.foldl min x ∈ xs := by
  induction xs generalizing x with
  | nil => left; rfl
  | cons a t ih =>
    simp only [List.foldl_cons, List.mem_cons]
    rcases ih (min x a) with h | h
    · rcases min_cases x a with ⟨he, _⟩ | ⟨he, _⟩
      · left; rw [h, he]
      · right; left; rw [h, he]
    · right; right; exact h

/-! Exact-arithmetic facts about the similarity of a frame with itself. -/

theorem zipWith_mul_self (l : List Real) :
    List.zipWith (fun a b => a * b) l l = l.map (fun v => v * v) := by
  induction l with
  | nil => rfl
  | cons x t ih => simp [List.zipWith_cons_cons, ih]

theorem meanL_map_mul_const (l : List Real) (g : Real → Real) (c : Real) :
    meanL (l.map (fun v => g v * c)) = meanL (l.map g) * c := by
  unfold meanL
  have hs : (l.map (fun v => g v * c)).sum = (l.map g).sum * c := by
    induction l with
    | nil => simp
    | cons x t ih =>
      simp only [List.map_cons, List.sum_cons, ih]
      ring
  rw [hs, List.length_map, List.length_map, mul_div_right_comm]

theorem varL_nonneg (l : List Real) : 0 ≤ varL l := by
  unfold varL meanL
  apply div_nonneg
  · apply List.sum_nonneg
    intro x hx
    obtain ⟨v, _, rfl⟩ := List.mem_map.mp hx
    positivity
  · positivity

theorem sq_stdL (l : List Real) : stdL l ^ 2 = varL l :=
  Real.sq_sqrt (varL_nonneg l)

theorem frame_similarity_self (pre : α → List Real) (f : α) :
    frame_similarity pre f f =
      (varL (pre f) * ((stdL (pre f) + 1e-6) ^ 2)⁻¹ + 1) / 2 := by
  unfold frame_similarity zscore
  rw [zipWith_mul_self, List.map_map]
  have hpt : ((fun v => v * v) ∘
        fun v => (v - meanL (pre f)) / (stdL (pre f) + 1e-6)) =
      fun v => (v - meanL (pre f)) ^ 2 *
        (((stdL (pre f) + 1e-6) ^ 2)⁻¹) := by
    funext v
    simp only [Function.comp]
    field_simp
    ring
  rw [hpt, meanL_map_mul_const (pre f)
    (fun v => (v - meanL (pre f)) ^ 2) (((stdL (pre f) + 1e-6) ^ 2)⁻¹)]
  rfl

theorem frame_similarity_self_ge (pre : α → List Real) (f : α)
    (h : 1 / 1000 ≤ stdL (pre f)) :
    (0.995 : Real) ≤ frame_similarity pre f f := by
  rw [frame_similarity_self]
  have hv : varL (pre f) = stdL (pre f) ^ 2 := (sq_stdL _).symm
  rw [hv]
  have hpos : (0 : Real) < (stdL (pre f) + 1e-6) ^ 2 := by positivity
  have key : (0.99 : Real) * (stdL (pre f) + 1e-6) ^ 2 ≤
      stdL (pre f) ^ 2 := by
    nlinarith [h, sq_nonneg (stdL (pre f) - 1 / 1000)]
  have h2 : (0.99 : Real) ≤ stdL (pre f) ^ 2 *
      ((stdL (pre f) + 1e-6) ^ 2)⁻¹ := by
    rw [← div_eq_mul_inv, le_div_iff₀ hpos]
    linarith
  linarith

/-! Case-folding facts used to relate the verbatim Japanese keyword match
of `Agent._choice_score` to the spec's uniformly case-insensitive
description: characters outside the basic-latin letters are fixed points
of `Char.toLower` and are never produced by it. -/

theorem toLower_eq_self {c : Char} (h : 122 < c.toNat) : c.toLower = c := by
  unfold Char.toLower
  rw [if_neg]
  omega

theorem toNat_ofNat_lt {n : Nat} (h : n < 55296) :
    (Char.ofNat n).toNat = n := by
  unfold Char.ofNat
  rw [dif_pos (Or.inl h)]
  rfl

theorem toLower_eq_of_gt {c d : Char} (hc : 122 < c.toNat)
    (h : d.toLower = c) : d = c := by
  unfold Char.toLower at h
  have h2 : (if d.toNat ≥ 65 ∧ d.toNat ≤ 90 then Char.ofNat (d.toNat + 32)
      else d) = c := h
  by_cases hcond : d.toNat ≥ 65 ∧ d.toNat ≤ 90
  · exfalso
    rw [if_pos hcond] at h2
    have hd : d.toNat + 32 < 55296 := by omega
    have h3 := toNat_ofNat_lt hd
    rw [h2] at h3
    omega
  · rw [if_neg hcond] at h2
    exact h2

theorem map_toLower_fixed {kw : List Char}
    (h : ∀ c ∈ kw, 122 < c.toNat) : kw.map Char.toLower = kw := by
  induction kw with
  | nil => rfl
  | cons c t ih =>
    simp only [List.map_cons]
    rw [toLower_eq_self (h c (List.mem_cons_self c t)),
      ih (fun x hx => h x (List.mem_cons_of_mem c hx))]

theorem map_toLower_eq_fixed {u kw : List Char}
    (h : ∀ c ∈ kw, 122 < c.toNat) (he : u.map Char.toLower = kw) :
    u = kw := by
  induction u generalizing kw with
  | nil => simpa using he.symm
  | cons c t ih =>
    cases kw with
    | nil => simp at he
    | cons c2 t2 =>
      simp only [List.map_cons, List.cons.injEq] at he
      have h1 : c = c2 :=
        toLower_eq_of_gt (h c2 (List.mem_cons_self c2 t2)) he.1
      have h2 : t = t2 :=
        ih (fun x hx => h x (List.mem_cons_of_mem c2 hx)) he.2
      rw [h1, h2]

/-- For a needle of non-latin characters, substring matching commutes
with case folding of the haystack. -/
theorem infix_map_toLower {kw text : List Char}
    (h : ∀ c ∈ kw, 122 < c.toNat) :
    kw <:+: text.map Char.toLower ↔ kw <:+: text := by
  constructor
  · rintro ⟨s, t, hst⟩
    rw [show s ++ kw ++ t = s ++ (kw ++ t) by simp] at hst
    obtain ⟨s2, r2, hsplit, hs2, hr2⟩ := List.map_eq_append_iff.mp hst.symm
    obtain ⟨k2, t2, hsplit2, hk2, ht2⟩ := List.map_eq_append_iff.mp hr2
    have hk : k2 = kw := map_toLower_eq_fixed h hk2
    exact ⟨s2, t2, by rw [hsplit, hsplit2, hk]; simp⟩
  · rintro ⟨s, t, hst⟩
    refine ⟨s.map Char.toLower, t.map Char.toLower, ?_⟩
    rw [← hst]
    simp [map_toLower_fixed h]

/-! Correctness of the best-score scan of `Agent._select_choice`:
either nothing beats the incoming best score and the incoming best index
is returned, or the returned index points to the earliest maximum of the
scanned suffix. -/

theorem getD_mem_of_lt (l : List α) (d : α) {n : Nat}
    (h : n < l.length) : l.getD n d ∈ l := by
  rw [List.getD_eq_getElem?_getD, List.getElem?_eq_getElem h,
    Option.getD_some]
  exact List.getElem_mem h

theorem select_choice_aux_spec :
    ∀ (l : List String) (i best_i : Nat) (best_score : Int),
    ((select_choice_aux l i best_i best_score).1 = best_i ∧
      ∀ o ∈ l, (choice_score o : Int) ≤ best_score) ∨
    (∃ k, k < l.length ∧
      (select_choice_aux l i best_i best_score).1 = i + k ∧
      best_score < (choice_score (l.getD k "") : Int) ∧
      (∀ j, j < l.length →
        choice_score (l.getD j "") ≤ choice_score (l.getD k "")) ∧
      (∀ j, j < k →
        choice_score (l.getD j "") < choice_score (l.getD k ""))) := by
  intro l
  induction l with
  | nil =>
    intro i bi bs
    left
    exact ⟨rfl, by simp⟩
  | cons o rest ih =>
    intro i bi bs
    rw [select_choice_aux]
    by_cases hlt : bs < (choice_score o : Int)
    · rw [if_pos hlt]
      rcases ih (i + 1) i (choice_score o) with ⟨hr, hall⟩ | hk
      · right
        refine ⟨0, by simp, by simpa using hr, by simpa using hlt, ?_, ?_⟩
        · intro j hj
          cases j with
          | zero => simp
          | succ mj =>
            have := hall ((o :: rest).getD (mj + 1) "")
            simp only [List.getD_cons_succ] at this ⊢
            have h2 := this (getD_mem_of_lt rest "" (by simpa using hj))
            exact_mod_cast h2
        · intro j hj
          omega
      · obtain ⟨k, hk1, hk2, hk3, hk4, hk5⟩ := hk
        right
        refine ⟨k + 1, by simpa using hk1, by omega, ?_, ?_, ?_⟩
        · simp only [List.getD_cons_succ]
          exact lt_trans hlt hk3
        · intro j hj
          cases j with
          | zero =>
            simp only [List.getD_cons_zero, List.getD_cons_succ]
            have : (choice_score o : Int) <
                (choice_score (rest.getD k "") : Int) := lt_of_lt_of_le hk3 le_rfl
            exact_mod_cast le_of_lt this
          | succ mj =>
            simp only [List.getD_cons_succ]
            exact hk4 mj (by simpa using hj)
        · intro j hj
          cases j with
          | zero =>
            simp only [List.getD_cons_zero, List.getD_cons_succ]
            exact_mod_cast hk3
          | succ mj =>
            simp only [List.getD_cons_succ]
            exact hk5 mj (by omega)
    · rw [if_neg hlt]
      rcases ih (i + 1) bi bs with ⟨hr, hall⟩ | hk
      · left
        refine ⟨hr, ?_⟩
        intro x hx
        rcases List.mem_cons.mp hx with rfl | hx2
        · omega
        · exact hall x hx2
      · obtain ⟨k, hk1, hk2, hk3, hk4, hk5⟩ := hk
        right
        refine ⟨k + 1, by simpa using hk1, by omega, ?_, ?_, ?_⟩
        · simp only [List.getD_cons_succ]
          exact hk3
        · intro j hj
          cases j with
          | zero =>
            simp only [List.getD_cons_zero, List.getD_cons_succ]
            have ho : (choice_score o : Int) <
                (choice_score (rest.getD k "") : Int) := by omega
            exact_mod_cast le_of_lt ho
          | succ mj =>
            simp only [List.getD_cons_succ]
            exact hk4 mj (by simpa using hj)
        · intro j hj
          cases j with
          | zero =>
            simp only [List.getD_cons_zero, List.getD_cons_succ]
            have ho : (choice_score o : Int) <
                (choice_score (rest.getD k "") : Int) := by omega
            exact_mod_cast ho
          | succ mj =>
            simp only [List.getD_cons_succ]
            exact hk5 mj (by omega)

/-- The code's score agrees with the spec's uniformly case-insensitive
reading on every text: Japanese keywords contain no latin letters, so the
verbatim match equals the case-folded match. -/
theorem choice_score_eq_spec (text : String) :
    choice_score text = score_spec text := by
  have hjp : jp_keywords.countP (fun kw => isSubstring kw text) =
      jp_keywords.countP
        (fun kw => isSubstring (lowerStr kw) (lowerStr text)) := by
    apply List.countP_congr
    intro kw hkw
    have hfix : lowerStr kw = kw ∧ ∀ c ∈ kw.data, 122 < c.toNat := by
      fin_cases hkw <;> exact ⟨by decide, by decide⟩
    rw [hfix.1]
    simp only [isSubstring, decide_eq_true_eq]
    exact (infix_map_toLower hfix.2).symm
  simp only [choice_score, score_spec, List.countP_append]
  omega

/-! Python `max`/`min` of a non-empty list: an upper/lower bound that is
attained. -/

theorem listMax_spec (l : List Int) (hl : l ≠ []) :
    (∀ y ∈ l, y ≤ listMax l) ∧ listMax l ∈ l := by
  cases l with
  | nil => exact absurd rfl hl
  | cons x xs =>
    simp only [listMax]
    constructor
    · intro y hy
      rcases List.mem_cons.mp hy with rfl | hy2
      · exact (foldl_max_spec xs y).1
      · exact (foldl_max_spec xs x).2 y hy2
    · rcases foldl_max_mem xs x with h | h
      · rw [h]; exact List.mem_cons_self x xs
      · exact List.mem_cons_of_mem x h

theorem listMin_spec (l : List Int) (hl : l ≠ []) :
    (∀ y ∈ l, listMin l ≤ y) ∧ listMin l ∈ l := by
  cases l with
  | nil => exact absurd rfl hl
  | cons x xs =>
    simp only [listMin]
    constructor
    · intro y hy
      rcases List.mem_cons.mp hy with rfl | hy2
      · exact (foldl_min_spec xs y).1
      · exact (foldl_min_spec xs x).2 y hy2
    · rcases foldl_min_mem xs x with h | h
      · rw [h]; exact List.mem_cons_self x xs
      · exact List.mem_cons_of_mem x h

/-! The decision stream while the override remains active. -/

theorem loop_run_override (ua : Rat) :
    ∀ (inputs : List TickInput) (c N : Nat),
    (∀ i ∈ inputs, ua ≤ i.blocked_s) → N < inputs.length →
    (loop_run ua c inputs).getD N "" =
      PATTERN.getD ((c + N) % PATTERN.length) "" := by
  intro inputs
  induction inputs with
  | nil =>
    intro c N _ hN
    simp at hN
  | cons inp rest ih =>
    intro c N hall hN
    rw [loop_run]
    have hhd : loop_decide ua c inp =
        (PATTERN.getD (c % PATTERN.length) "", c + 1) := by
      unfold loop_decide
      rw [if_pos (hall inp (List.mem_cons_self inp rest))]
      rfl
    cases N with
    | zero =>
      simp only [List.getD_cons_zero, hhd, Nat.add_zero]
    | succ n =>
      simp only [List.getD_cons_succ, hhd]
      rw [ih (c + 1) n (fun i hi => hall i (List.mem_cons_of_mem inp hi))
        (by simpa using hN)]
      congr 2
      omega

/-- The two-valued intensity list `[0, 2]` has mean 1, variance 1 and
standard deviation 1; it serves as a concrete non-degenerate frame. -/
theorem stdL_pair : stdL [(0 : Real), 2] = 1 := by
  have hm : meanL [(0 : Real), 2] = 1 := by
    unfold meanL
    norm_num
  have hv : varL [(0 : Real), 2] = 1 := by
    unfold varL
    rw [hm]
    unfold meanL
    norm_num
  unfold stdL
  rw [hv, Real.sqrt_one]

/-! Field-level effects of the memory mutators, used by the claims about
`Agent.next_action` and the memory invariants. -/

theorem mark_visited_untouched (m : Memory) (pos : Int × Int)
    (now : Rat) :
    (m.mark_visited pos now).seen_hashes = m.seen_hashes ∧
    (m.mark_visited pos now).recent_dialogs = m.recent_dialogs ∧
    (m.mark_visited pos now).prev_interactables = m.prev_interactables ∧
    (m.mark_visited pos now).missing_counts = m.missing_counts ∧
    (m.mark_visited pos now).used_interactables = m.used_interactables ∧
    (m.mark_visited pos now).last_positions =
      ringPush 30 m.last_positions pos ∧
    (∀ q ∈ m.visited_cells, q ∈ (m.mark_visited pos now).visited_cells) := by
  unfold Memory.mark_visited Memory.mark_progress
  by_cases hv : pos ∈ m.visited_cells
  · simp [hv]
  · simp [hv]
    exact fun a b h => Or.inl h

theorem mark_used_untouched (m : Memory) (x y : Int) (t : String)
    (now : Rat) :
    (m.mark_used_interactable x y t now).seen_hashes = m.seen_hashes ∧
    (m.mark_used_interactable x y t now).recent_dialogs =
      m.recent_dialogs ∧
    (m.mark_used_interactable x y t now).prev_interactables =
      m.prev_interactables ∧
    (m.mark_used_interactable x y t now).missing_counts =
      m.missing_counts ∧
    (m.mark_used_interactable x y t now).visited_cells =
      m.visited_cells ∧
    (m.mark_used_interactable x y t now).last_positions =
      m.last_positions :=
  ⟨rfl, rfl, rfl, rfl, rfl, rfl⟩

theorem update_progress_fields (m : Memory) (p : Perception)
    (now : Rat) :
    (m.update_progress p now).visited_cells = m.visited_cells ∧
    (m.update_progress p now).used_interactables =
      m.used_interactables ∧
    (m.update_progress p now).last_positions = m.last_positions ∧
    ((m.update_progress p now).seen_hashes = m.seen_hashes ∨
      ∃ h, (m.update_progress p now).seen_hashes =
        ringPush 50 m.seen_hashes h) ∧
    ((m.update_progress p now).recent_dialogs = m.recent_dialogs ∨
      ∃ s, (m.update_progress p now).recent_dialogs =
        ringPush 5 m.recent_dialogs s) := by
  unfold Memory.update_progress Memory.mark_progress
  cases p.screen_hash <;> cases p.dialog_text <;>
    simp only [] <;> split_ifs <;>
    exact ⟨rfl, rfl, rfl,
      by first | exact Or.inl rfl | exact Or.inr ⟨_, rfl⟩,
      by first | exact Or.inl rfl | exact Or.inr ⟨_, rfl⟩⟩

/-! ## The claims -/

/-- C1: for every non-empty list of choice strings, `_select_choice`
returns an in-range index whose `_choice_score` is maximal, with ties
resolved to the earliest index; `_choice_score` counts case-insensitive
substring matches of the choice against the fixed trilingual
story-positive keyword set; and for `["Cancel", "Yes, continue"]` the
selected index is 1. -/
theorem claim_C1_choice_selection (choices : List String)
    (h : choices ≠ []) :
    select_choice choices < choices.length ∧
    (∀ j, j < choices.length →
      choice_score (choices.getD j "") ≤
        choice_score (choices.getD (select_choice choices) "")) ∧
    (∀ j, j < select_choice choices →
      choice_score (choices.getD j "") <
        choice_score (choices.getD (select_choice choices) "")) ∧
    (∀ text, choice_score text = score_spec text) ∧
    select_choice ["Cancel", "Yes, continue"] = 1 := by
  rcases select_choice_aux_spec choices 0 0 (-1) with ⟨_, hall⟩ | hk
  · exfalso
    obtain ⟨o, rest, rfl⟩ := List.exists_cons_of_ne_nil h
    have := hall o (List.mem_cons_self o rest)
    have h0 : (0 : Int) ≤ (choice_score o : Int) := Int.ofNat_nonneg _
    omega
  · obtain ⟨k, hk1, hk2, _, hk4, hk5⟩ := hk
    have hsel : select_choice choices = k := by
      unfold select_choice
      rw [hk2]
      omega
    rw [hsel]
    exact ⟨hk1, hk4, hk5, choice_score_eq_spec, by decide⟩

/-- C1 witness: instantiation at the concrete choice list from the
spec. -/
theorem claim_C1_witness :
    select_choice ["Cancel", "Yes, continue"] < 2 ∧
    choice_score "Cancel" ≤
      choice_score ((["Cancel", "Yes, continue"] : List String).getD
        (select_choice ["Cancel", "Yes, continue"]) "") ∧
    select_choice ["Cancel", "Yes, continue"] = 1 := by
  have h := claim_C1_choice_selection ["Cancel", "Yes, continue"]
    (by decide)
  refine ⟨h.1, ?_, h.2.2.2.2⟩
  have h2 := h.2.1 0 (by decide)
  simpa using h2

/-- C2: whenever the snapshot has `in_dialog = True`, `Agent.next_action`
returns the confirm action, whatever the choices list holds (dialogue
strictly precedes choice selection in the priority ladder). -/
theorem claim_C2_dialog_priority (m : Memory) (p : Perception) (now : Rat)
    (h : p.in_dialog = true) :
    (next_action m p now).1 = Action.press_confirm := by
  unfold next_action
  rw [h]
  cases p.pos <;> simp

/-- C2 witness: dialogue open and a non-empty choices list simultaneously
still yields confirm. -/
theorem claim_C2_witness :
    (next_action (Memory.init 0)
      { in_dialog := true, choices := ["Cancel", "Yes, continue"],
        pos := none, interactables := [], screen_hash := none } 1).1 =
      Action.press_confirm :=
  claim_C2_dialog_priority (Memory.init 0)
    { in_dialog := true, choices := ["Cancel", "Yes, continue"],
      pos := none, interactables := [], screen_hash := none } 1 rfl

/-- C4: the unblock routine is a pattern of 15 primitives; each
invocation yields `PATTERN[cursor % 15]` and advances the cursor by one;
the loop's decision site never rewinds the cursor (so it is not reset
when the override is re-triggered); and over any run of consecutive
overridden ticks started at a fresh cursor, the Nth decision is
`PATTERN[N mod 15]` regardless of the tick's perception-derived
content. -/
theorem claim_C4_unblock_override (ua : Rat) (inputs : List TickInput)
    (N c : Nat) (inp : TickInput)
    (hall : ∀ i ∈ inputs, ua ≤ i.blocked_s) (hN : N < inputs.length) :
    PATTERN.length = 15 ∧
    routine_next c = (PATTERN.getD (c % 15) "", c + 1) ∧
    c ≤ (loop_decide ua c inp).2 ∧
    (loop_run ua 0 inputs).getD N "" = PATTERN.getD (N % 15) "" := by
  refine ⟨rfl, rfl, ?_, ?_⟩
  · unfold loop_decide
    split
    · exact Nat.le_succ c
    · exact Nat.le_refl c
  · have h := loop_run_override ua inputs 0 N hall hN
    simpa using h

/-- C4 witness: seventeen consecutive fully-blocked ticks; the 16th
decision (index 16) wraps around to `PATTERN[1] = "RIGHT"`. -/
theorem claim_C4_witness :
    (loop_run 8 0 (List.replicate 17 ⟨9, "UP"⟩)).getD 16 "" = "RIGHT" := by
  have h := claim_C4_unblock_override 8 (List.replicate 17 ⟨9, "UP"⟩)
    16 0 ⟨9, "UP"⟩ (by intro i hi; rw [List.eq_of_mem_replicate hi]; norm_num)
    (by simp)
  rw [h.2.2.2]
  rfl

/-- C5: packing then unpacking any pair of signed 16-bit coordinates is
the identity. -/
theorem claim_C5_pack_roundtrip (x y : Int)
    (hx1 : -32768 ≤ x) (hx2 : x ≤ 32767)
    (hy1 : -32768 ≤ y) (hy2 : y ≤ 32767) :
    unpack_cell (pack_cell x y) = (x, y) := by
  have halt : (x % 65536).toNat < 65536 := by omega
  have hblt : (y % 65536).toNat < 65536 := by omega
  have hpack : pack_cell x y =
      (x % 65536).toNat * 65536 + (y % 65536).toNat := by
    rw [pack_cell, shiftLeft_or_eq _ _ hblt]
  have hshift : ((x % 65536).toNat * 65536 + (y % 65536).toNat) >>> 16 =
      (x % 65536).toNat := by
    rw [Nat.shiftRight_eq_div_pow]
    have h2 : (2 : Nat) ^ 16 = 65536 := by norm_num
    rw [h2]
    omega
  have hmask : ∀ n : Nat, n &&& 0xFFFF = n % 65536 := by
    intro n
    have h : (0xFFFF : Nat) = 2 ^ 16 - 1 := by norm_num
    rw [h, Nat.and_pow_two_sub_one_eq_mod]
  rw [unpack_cell, hpack]
  simp only [hshift, hmask]
  simp only [Prod.mk.injEq]
  split_ifs <;> omega

/-- C5 witness: the extreme corners of the signed 16-bit range
round-trip. -/
theorem claim_C5_witness :
    unpack_cell (pack_cell (-32768) 32767) = (-32768, 32767) :=
  claim_C5_pack_roundtrip (-32768) 32767 (by decide) (by decide)
    (by decide) (by decide)

/-- C6: `Memory.is_stuck` is false whenever the position history holds
fewer than 30 entries, and at full capacity it is true exactly when all
recorded positions fit in a 2-by-2 bounding box (span at most 1 cell on
each axis). -/
theorem claim_C6_is_stuck (m : Memory) :
    (m.last_positions.length < 30 → m.is_stuck = false) ∧
    (m.last_positions.length = 30 →
      (m.is_stuck = true ↔
        ∃ x0 y0 : Int, ∀ q ∈ m.last_positions,
          x0 ≤ q.1 ∧ q.1 ≤ x0 + 1 ∧ y0 ≤ q.2 ∧ q.2 ≤ y0 + 1)) := by
  constructor
  · intro hlen
    unfold Memory.is_stuck
    rw [if_pos hlen]
  · intro hlen
    unfold Memory.is_stuck
    rw [if_neg (by omega)]
    simp only [Bool.and_eq_true, decide_eq_true_eq]
    have hxs : m.last_positions.map Prod.fst ≠ [] := by
      intro hc
      have := congrArg List.length hc
      simp [hlen] at this
    have hys : m.last_positions.map Prod.snd ≠ [] := by
      intro hc
      have := congrArg List.length hc
      simp [hlen] at this
    constructor
    · rintro ⟨h1, h2⟩
      refine ⟨listMin (m.last_positions.map Prod.fst),
        listMin (m.last_positions.map Prod.snd), ?_⟩
      intro q hq
      have hxq : q.1 ∈ m.last_positions.map Prod.fst :=
        List.mem_map_of_mem Prod.fst hq
      have hyq : q.2 ∈ m.last_positions.map Prod.snd :=
        List.mem_map_of_mem Prod.snd hq
      have hx1 := (listMin_spec _ hxs).1 q.1 hxq
      have hx2 := (listMax_spec _ hxs).1 q.1 hxq
      have hy1 := (listMin_spec _ hys).1 q.2 hyq
      have hy2 := (listMax_spec _ hys).1 q.2 hyq
      exact ⟨hx1, by omega, hy1, by omega⟩
    · rintro ⟨x0, y0, hb⟩
      constructor
      · obtain ⟨qM, hqM_mem, hqM⟩ :=
          List.mem_map.mp (listMax_spec _ hxs).2
        obtain ⟨qm, hqm_mem, hqm⟩ :=
          List.mem_map.mp (listMin_spec _ hxs).2
        have h1 := hb qM hqM_mem
        have h2 := hb qm hqm_mem
        omega
      · obtain ⟨qM, hqM_mem, hqM⟩ :=
          List.mem_map.mp (listMax_spec _ hys).2
        obtain ⟨qm, hqm_mem, hqm⟩ :=
          List.mem_map.mp (listMin_spec _ hys).2
        have h1 := hb qM hqM_mem
        have h2 := hb qm hqm_mem
        omega

/-- C6 witness: a full 30-entry history oscillating between two adjacent
cells is stuck, and a short history is never stuck. -/
theorem claim_C6_witness :
    ({ Memory.init 0 with
        last_positions := List.replicate 30 ((3 : Int), (4 : Int))
      } : Memory).is_stuck = true ∧
    ({ Memory.init 0 with
        last_positions := [((3 : Int), (4 : Int))] } : Memory).is_stuck
      = false := by
  constructor
  · have h := claim_C6_is_stuck
      { Memory.init 0 with
        last_positions := List.replicate 30 ((3 : Int), (4 : Int)) }
    have h30 : (List.replicate 30 ((3 : Int), (4 : Int))).length = 30 := by
      decide
    refine ((h.2 h30).mpr ⟨3, 4, ?_⟩)
    intro q hq
    rw [List.eq_of_mem_replicate hq]
    refine ⟨by decide, by decide, by decide, by decide⟩
  · exact (claim_C6_is_stuck _).1 (by decide)

/-- C3: the blocked-state update returns `prev_blocked + dt` exactly when
the computed similarity reaches the threshold and the motion magnitude is
below 0.2, and 0 otherwise; a similarity below the threshold resets the
accumulator regardless of the motion value; and for identical consecutive
frames whose intensity distribution is non-degenerate (standard deviation
at least 1/1000) the accumulator grows by exactly `dt` under the default
threshold 0.995, for any flow value below 0.2. -/
theorem claim_C3_blocked_update (pre : α → List Real)
    (flowM : α → α → Real) (p c : α) (b dt θ : Real) :
    (θ ≤ frame_similarity pre p c ∧ flowM p c < 0.2 →
      update_blocked_seconds pre flowM p c b dt θ = b + dt) ∧
    (¬(θ ≤ frame_similarity pre p c ∧ flowM p c < 0.2) →
      update_blocked_seconds pre flowM p c b dt θ = 0) ∧
    (frame_similarity pre p c < θ →
      update_blocked_seconds pre flowM p c b dt θ = 0) ∧
    (p = c → 1 / 1000 ≤ stdL (pre c) → flowM c c < 0.2 →
      update_blocked_seconds pre flowM p c b dt 0.995 = b + dt) := by
  refine ⟨?_, ?_, ?_, ?_⟩
  · intro h
    unfold update_blocked_seconds
    rw [if_pos h]
  · intro h
    unfold update_blocked_seconds
    rw [if_neg h]
  · intro h
    unfold update_blocked_seconds
    rw [if_neg]
    intro hc
    exact absurd hc.1 (not_le.mpr h)
  · rintro rfl hstd hflow
    unfold update_blocked_seconds
    rw [if_pos ⟨frame_similarity_self_ge pre p hstd, hflow⟩]

/-- C3 witness: a concrete frame whose downsampled grayscale is `[0, 2]`
(standard deviation 1) compared with itself, with zero motion: the
accumulator 1 grows to 1 + 1/2. -/
theorem claim_C3_witness :
    update_blocked_seconds (fun _ : Unit => [(0 : Real), 2])
      (fun _ _ => 0) () () 1 (1 / 2) 0.995 = 1 + 1 / 2 := by
  have h := (claim_C3_blocked_update (fun _ : Unit => [(0 : Real), 2])
    (fun _ _ => 0) () () 1 (1 / 2) 0.995).2.2.2
  apply h rfl
  · rw [stdL_pair]
    norm_num
  · norm_num

/-- C7: the claim asserts that an interactable absent for 2 consecutive
ticks marks progress and clears its hysteresis counter on the second
miss.  The code contradicts it: after the first missed tick the
interactable is no longer in `_prev_interactables`, so its counter
freezes at 1 forever and no progress is marked (first conjunct: present,
then absent twice — `last_progress_t` stays 0 and the counter is stuck at
1).  The strike branch fires instead on two *non-consecutive* misses
(second conjunct: present, absent, present, absent — progress is marked
at tick 4 although the interactable was never absent 2 consecutive
ticks). -/
theorem claim_C7_hysteresis_bug :
    (((((Memory.init 0).update_progress
          { in_dialog := false, choices := [], pos := none,
            interactables := [((0 : Int), (0 : Int), "door")],
            screen_hash := none } 1).update_progress
          { in_dialog := false, choices := [], pos := none,
            interactables := [], screen_hash := none } 2).update_progress
          { in_dialog := false, choices := [], pos := none,
            interactables := [], screen_hash := none } 3).last_progress_t
        = 0 ∧
      ((((Memory.init 0).update_progress
          { in_dialog := false, choices := [], pos := none,
            interactables := [((0 : Int), (0 : Int), "door")],
            screen_hash := none } 1).update_progress
          { in_dialog := false, choices := [], pos := none,
            interactables := [], screen_hash := none } 2).update_progress
          { in_dialog := false, choices := [], pos := none,
            interactables := [], screen_hash := none } 3).missing_counts
        = [(((0 : Int), (0 : Int), "door"), 1)]) ∧
    ((((((Memory.init 0).update_progress
          { in_dialog := false, choices := [], pos := none,
            interactables := [((0 : Int), (0 : Int), "door")],
            screen_hash := none } 1).update_progress
          { in_dialog := false, choices := [], pos := none,
            interactables := [], screen_hash := none } 2).update_progress
          { in_dialog := false, choices := [], pos := none,
            interactables := [((0 : Int), (0 : Int), "door")],
            screen_hash := none } 3).update_progress
          { in_dialog := false, choices := [], pos := none,
            interactables := [], screen_hash := none } 4).last_progress_t
        = 4 ∧
      (((((Memory.init 0).update_progress
          { in_dialog := false, choices := [], pos := none,
            interactables := [((0 : Int), (0 : Int), "door")],
            screen_hash := none } 1).update_progress
          { in_dialog := false, choices := [], pos := none,
            interactables := [], screen_hash := none } 2).update_progress
          { in_dialog := false, choices := [], pos := none,
            interactables := [((0 : Int), (0 : Int), "door")],
            screen_hash := none } 3).update_progress
          { in_dialog := false, choices := [], pos := none,
            interactables := [], screen_hash := none } 4).missing_counts
        = []) := by
  refine ⟨⟨?_, ?_⟩, ?_, ?_⟩ <;> decide

/-- C8: the claim asserts the first tick always yields
`blocked_seconds = 0`.  The code contradicts it: `main.main` initialises
`prev = frame.copy()` and calls `update_blocked_seconds` on the frame
against its own copy with accumulator 0, so any frame with
non-degenerate intensity variance (here: downsampled grayscale `[0, 2]`,
standard deviation 1) and negligible flow yields `dt`, not 0. -/
theorem claim_C8_first_tick_bug :
    first_tick_blocked (fun _ : Unit => [(0 : Real), 2]) (fun _ _ => 0)
      () (1 / 10) = 1 / 10 ∧ ((1 : Real) / 10 ≠ 0) := by
  constructor
  · unfold first_tick_blocked update_blocked_seconds
    rw [if_pos]
    · rw [zero_add]
    · constructor
      · apply frame_similarity_self_ge
        rw [stdL_pair]
        norm_num
      · norm_num
  · norm_num

/-- C9: the mutating memory operations preserve the ring-capacity
invariants (`position_history` at most 30, fingerprint ring at most 50,
dialog ring at most 5) and never remove a visited cell; loading persisted
data — even oversized — yields rings truncated to the capacity bounds. -/
theorem claim_C9_memory_invariants (m : Memory) (pos : Int × Int)
    (x y : Int) (t : String) (p : Perception) (now : Rat) (d : SaveData)
    (hm : m.last_positions.length ≤ 30 ∧ m.seen_hashes.length ≤ 50 ∧
      m.recent_dialogs.length ≤ 5) :
    ((m.mark_visited pos now).last_positions.length ≤ 30 ∧
      (m.mark_visited pos now).seen_hashes.length ≤ 50 ∧
      (m.mark_visited pos now).recent_dialogs.length ≤ 5 ∧
      (∀ q ∈ m.visited_cells, q ∈ (m.mark_visited pos now).visited_cells)) ∧
    ((m.mark_used_interactable x y t now).last_positions.length ≤ 30 ∧
      (m.mark_used_interactable x y t now).seen_hashes.length ≤ 50 ∧
      (m.mark_used_interactable x y t now).recent_dialogs.length ≤ 5 ∧
      (m.mark_used_interactable x y t now).visited_cells =
        m.visited_cells) ∧
    ((m.update_progress p now).last_positions.length ≤ 30 ∧
      (m.update_progress p now).seen_hashes.length ≤ 50 ∧
      (m.update_progress p now).recent_dialogs.length ≤ 5 ∧
      (m.update_progress p now).visited_cells = m.visited_cells) ∧
    ((Memory.load d).last_positions.length ≤ 30 ∧
      (Memory.load d).seen_hashes.length ≤ 50 ∧
      (Memory.load d).recent_dialogs.length ≤ 5) := by
  obtain ⟨h30, h50, h5⟩ := hm
  refine ⟨?_, ?_, ?_, ?_⟩
  · obtain ⟨hs, hr, _, _, _, hlp, hvis⟩ := mark_visited_untouched m pos now
    exact ⟨by rw [hlp]; exact length_ringPush _ _ _,
      by rw [hs]; exact h50, by rw [hr]; exact h5, hvis⟩
  · obtain ⟨hs, hr, _, _, hvis, hlp⟩ := mark_used_untouched m x y t now
    exact ⟨by rw [hlp]; exact h30, by rw [hs]; exact h50,
      by rw [hr]; exact h5, hvis⟩
  · obtain ⟨hvis, _, hlp, hseen, hrec⟩ := update_progress_fields m p now
    refine ⟨by rw [hlp]; exact h30, ?_, ?_, hvis⟩
    · rcases hseen with he | ⟨h2, he⟩
      · rw [he]; exact h50
      · rw [he]; exact length_ringPush _ _ _
    · rcases hrec with he | ⟨s2, he⟩
      · rw [he]; exact h5
      · rw [he]; exact length_ringPush _ _ _
  · exact ⟨length_takeLast _ _, length_takeLast _ _, length_takeLast _ _⟩

/-- C9 witness: a fresh memory marking a visit, and a persisted file
whose rings are oversized (45 positions, 60 hashes, 9 dialogs) loading
into capacity-bounded rings. -/
theorem claim_C9_witness :
    ((Memory.init 0).mark_visited (1, 2) 1).last_positions.length ≤ 30 ∧
    (Memory.load
      { visited_cells := [], used_interactables := [],
        last_positions := List.replicate 45 ((0 : Int), (0 : Int)),
        last_progress_t := 0,
        seen_hashes := List.replicate 60 (0 : Int),
        recent_dialogs := List.replicate 9 "d"
      }).last_positions.length ≤ 30 ∧
    (Memory.load
      { visited_cells := [], used_interactables := [],
        last_positions := List.replicate 45 ((0 : Int), (0 : Int)),
        last_progress_t := 0,
        seen_hashes := List.replicate 60 (0 : Int),
        recent_dialogs := List.replicate 9 "d"
      }).seen_hashes.length ≤ 50 := by
  have h := claim_C9_memory_invariants (Memory.init 0) (1, 2) 0 0 "door"
    { in_dialog := false, choices := [], pos := none,
      interactables := [], screen_hash := none } 1
    { visited_cells := [], used_interactables := [],
      last_positions := List.replicate 45 ((0 : Int), (0 : Int)),
      last_progress_t := 0,
      seen_hashes := List.replicate 60 (0 : Int),
      recent_dialogs := List.replicate 9 "d" }
    (by refine ⟨?_, ?_, ?_⟩ <;> decide)
  exact ⟨h.1.1, h.2.2.2.1, h.2.2.2.2.1⟩

/-- C10 counterexample: the claim asserts deciding leaves the memory
completely unchanged, but `next_action` on a snapshot with a known
position records the cell as visited, so the memory differs. -/
theorem claim_C10_counterexample :
    (next_action (Memory.init 0)
      { in_dialog := false, choices := [],
        pos := some ((5 : Int), (7 : Int)), interactables := [],
        screen_hash := none } 1).2 ≠ Memory.init 0 := by
  decide

/-- C10 (amended): `next_action` returns an action but is not pure in the
memory — it may mark the perceived position visited, refresh
`last_progress_t` and mark an interactable used; it never modifies the
fingerprint ring, the dialog ring or the interactable-hysteresis
trackers, and never removes a visited cell. -/
theorem claim_C10_next_action_effects (m : Memory) (p : Perception)
    (now : Rat) :
    (next_action m p now).2.seen_hashes = m.seen_hashes ∧
    (next_action m p now).2.recent_dialogs = m.recent_dialogs ∧
    (next_action m p now).2.prev_interactables = m.prev_interactables ∧
    (next_action m p now).2.missing_counts = m.missing_counts ∧
    (∀ q ∈ m.visited_cells, q ∈ (next_action m p now).2.visited_cells) := by
  unfold next_action
  cases hp : p.pos with
  | none =>
    simp only [hp]
    split_ifs <;> exact ⟨rfl, rfl, rfl, rfl, fun q hq => hq⟩
  | some pos =>
    simp only [hp]
    obtain ⟨hs, hr, hpv, hmc, hu, hlp, hvis⟩ :=
      mark_visited_untouched m pos now
    rcases hft : find_target (m.mark_visited pos now).used_interactables
        p.interactables pos.1 pos.2 with _ | tg <;>
      simp only [hft] <;> split_ifs <;>
      exact ⟨hs, hr, hpv, hmc, hvis⟩

/-- C10 (amended) witness: deciding on a snapshot with a known position
leaves the fingerprint ring untouched and keeps previously visited
cells. -/
theorem claim_C10_witness :
    (next_action
      ({ Memory.init 0 with visited_cells := [((1 : Int), (1 : Int))] })
      { in_dialog := false, choices := [],
        pos := some ((5 : Int), (7 : Int)), interactables := [],
        screen_hash := none } 1).2.seen_hashes = [] ∧
    ((1 : Int), (1 : Int)) ∈
      (next_action
        ({ Memory.init 0 with
             visited_cells := [((1 : Int), (1 : Int))] })
        { in_dialog := false, choices := [],
          pos := some ((5 : Int), (7 : Int)), interactables := [],
          screen_hash := none } 1).2.visited_cells := by
  have h := claim_C10_next_action_effects
    ({ Memory.init 0 with visited_cells := [((1 : Int), (1 : Int))] })
    { in_dialog := false, choices := [],
      pos := some ((5 : Int), (7 : Int)), interactables := [],
      screen_hash := none } 1
  exact ⟨h.1, h.2.2.2.2 (1, 1) (by decide)⟩

end RPGM
